import Mathlib

/-!
Verification of the checkers rules engine in `src/checkers.py`.

The Python classes `Board`, `Player`, `ComputerPlayer` and `Game` are shallowly
embedded below.  Machine representation notes:

* A Python piece stores its own `row`/`col` redundantly with its grid slot; the
  engine keeps the two in sync (`Piece.move` is called exactly when the grid
  slot changes), so the embedding keeps only `color` and `king` in `Piece` and
  identifies a piece by its cell.  `Game.selected_piece` is likewise embedded
  as the selected cell.
* The grid is a `List (List (Option Piece))` of shape 8 x 8, like the Python
  list-of-lists.  Cell coordinates are `Int`, since the move generator forms
  `row + dr` with `dr = -1`.  Python's negative-index wraparound on a raw
  `grid[r][c]` access is not modelled: `gridGet`/`gridSet` act only on cells
  inside `[0,8) x [0,8)`, and every theorem below restricts to such cells
  (the engine's own generator never produces others).
* `Board.move_piece` dereferences the source cell unconditionally; calling it
  on an empty source raises `AttributeError` in Python, so the embedding
  returns `Option`, with `none` for that error path.
* `random.choice l` returns `l[i]` for a uniformly random `i < l.length`; the
  AI is embedded with the chosen indices passed in explicitly, and the
  medium-difficulty capture branch additionally gets a distribution semantics
  (`medium_capture_prob`) that weights each index pair uniformly per call.
-/

namespace Checkers

inductive Color where
  | red
  | black
deriving DecidableEq

def Color.other : Color → Color
  | .red => .black
  | .black => .red

structure Piece where
  color : Color
  king : Bool
deriving DecidableEq

/-- A cell `(row, col)`. -/
abbrev Pos := Int × Int

/-- Bounds test `0 <= r < 8 and 0 <= c < 8` used throughout `checkers.py`. -/
def inb (r c : Int) : Prop := 0 ≤ r ∧ r < 8 ∧ 0 ≤ c ∧ c < 8

instance (r c : Int) : Decidable (inb r c) := by
  unfold inb; infer_instance

/-- The 8 x 8 grid of optional pieces (`Board.grid` in the source). -/
abbrev Grid := List (List (Option Piece))

def gridGet (g : Grid) (r c : Int) : Option Piece :=
  if inb r c then ((g.getD r.toNat []).getD c.toNat none) else none

def gridSet (g : Grid) (r c : Int) (v : Option Piece) : Grid :=
  if inb r c then g.set r.toNat ((g.getD r.toNat []).set c.toNat v) else g

/-- Shape invariant of the Python list-of-lists grid: 8 rows of 8 columns. -/
def Grid.WF (g : Grid) : Prop := g.length = 8 ∧ ∀ row ∈ g, row.length = 8

instance (g : Grid) : Decidable (Grid.WF g) := by
  unfold Grid.WF; infer_instance

structure Board where
  grid : Grid
  red_left : Int
  black_left : Int
  red_kings : Int
  black_kings : Int
deriving DecidableEq

/-- `Board.get_piece`: bounds-checked lookup, `None` off-grid. -/
def Board.get_piece (b : Board) (row col : Int) : Option Piece :=
  gridGet b.grid row col

/-- `Board.setup_board`, one row: black on rows 0-2, red on rows 5-7, dark
squares only. -/
def setup_row (r : Nat) : List (Option Piece) :=
  (List.range 8).map fun c =>
    if (r + c) % 2 = 1 then
      if r < 3 then some ⟨Color.black, false⟩
      else if 5 ≤ r then some ⟨Color.red, false⟩
      else none
    else none

/-- `Board.__init__`: fresh grid via `setup_board`, 12 pieces each, no kings. -/
def initial_board : Board :=
  { grid := (List.range 8).map setup_row
    red_left := 12
    black_left := 12
    red_kings := 0
    black_kings := 0 }

/-- Movement directions collected in `get_valid_moves` (lines 189-195): red or
king pieces get the two up diagonals, black or king pieces the two down
diagonals, in that order. -/
def directions (p : Piece) : List (Int × Int) :=
  (if p.color = Color.red ∨ p.king = true then [(-1, -1), (-1, 1)] else []) ++
  (if p.color = Color.black ∨ p.king = true then [(1, -1), (1, 1)] else [])

/-- Inner move dictionary: destination cell to list of captured cells.
Python dicts preserve insertion order, so it is embedded as an association
list in insertion order (keys produced by distinct directions are distinct). -/
abbrev MoveMap := List (Pos × List Pos)

/-- Outer move dictionary: source cell to its `MoveMap`. -/
abbrev AllMoves := List (Pos × MoveMap)

/-- The jump loop of `get_valid_moves` (lines 197-205): for each direction,
an adjacent enemy piece with an empty on-grid cell behind it yields a
capturing destination. -/
def jump_candidates (b : Board) (row col : Int) (piece : Piece) : MoveMap :=
  (directions piece).filterMap fun d =>
    let r := row + d.1
    let c := col + d.2
    if inb r c then
      match b.get_piece r c with
      | some adjacent =>
        if adjacent.color ≠ piece.color then
          let jr := r + d.1
          let jc := c + d.2
          if inb jr jc ∧ b.get_piece jr jc = none then
            some ((jr, jc), [(r, c)])
          else none
        else none
      | none => none
    else none

/-- The regular-move loop of `get_valid_moves` (lines 211-215): each empty
adjacent on-grid cell is a non-capturing destination. -/
def simple_candidates (b : Board) (row col : Int) (piece : Piece) : MoveMap :=
  (directions piece).filterMap fun d =>
    let r := row + d.1
    let c := col + d.2
    if inb r c ∧ b.get_piece r c = none then some ((r, c), ([] : List Pos))
    else none

/-- `Board.get_valid_moves(row, col, jump_only)` (lines 172-217). -/
def Board.get_valid_moves (b : Board) (row col : Int) (jump_only : Bool) :
    MoveMap :=
  match b.get_piece row col with
  | none => []
  | some piece =>
    if jump_candidates b row col piece ≠ [] ∨ jump_only = true then
      jump_candidates b row col piece
    else simple_candidates b row col piece

/-- Row-major enumeration of the 64 cells, matching the nested
`for row in range(8): for col in range(8)` loops. -/
def allCells : List Pos :=
  (List.range 8).flatMap fun r => (List.range 8).map fun c => (Int.ofNat r, Int.ofNat c)

/-- The first loop of `get_all_valid_moves` (lines 233-241): the pieces of
`color` holding at least one jump, with their jump moves; `has_jumps` is the
non-emptiness of this collection. -/
def jump_entries (b : Board) (color : Color) : AllMoves :=
  allCells.filterMap fun p =>
    match b.get_piece p.1 p.2 with
    | some piece =>
      if piece.color = color then
        let moves := b.get_valid_moves p.1 p.2 true
        if moves ≠ [] then some (p, moves) else none
      else none
    | none => none

/-- The second loop of `get_all_valid_moves` (lines 248-254): every piece of
`color` with any legal move. -/
def all_entries (b : Board) (color : Color) : AllMoves :=
  allCells.filterMap fun p =>
    match b.get_piece p.1 p.2 with
    | some piece =>
      if piece.color = color then
        let moves := b.get_valid_moves p.1 p.2 false
        if moves ≠ [] then some (p, moves) else none
      else none
    | none => none

/-- `Board.get_all_valid_moves(color, jump_only)` (lines 219-256). -/
def Board.get_all_valid_moves (b : Board) (color : Color) (jump_only : Bool) :
    AllMoves :=
  if jump_entries b color ≠ [] ∨ jump_only = true then jump_entries b color
  else all_entries b color

/-- The promotion test of line 144: destination row is the far edge for the
piece's color.  The piece's current king status is NOT consulted. -/
def promotes (piece : Piece) (to_row : Int) : Prop :=
  (piece.color = Color.red ∧ to_row = 0) ∨
    (piece.color = Color.black ∧ to_row = 7)

instance (piece : Piece) (to_row : Int) : Decidable (promotes piece to_row) := by
  unfold promotes
  infer_instance

/-- The moved piece as stored on the destination: `make_king` (line 145) when
the promotion test holds. -/
def promoted_piece (piece : Piece) (to_row : Int) : Piece :=
  if promotes piece to_row then { piece with king := true } else piece

/-- The grid after lines 136-141: source cell cleared, moved (possibly
promoted) piece placed on the destination. -/
def moved_grid (b : Board) (fp tp : Pos) (piece : Piece) : Grid :=
  gridSet (gridSet b.grid fp.1 fp.2 none) tp.1 tp.2
    (some (promoted_piece piece tp.1))

/-- The king counters after the promotion check of lines 144-149: the moved
color's counter is incremented whenever the promotion test holds. -/
def kings_after_promotion (b : Board) (piece : Piece) (to_row : Int) :
    Int × Int :=
  (if promotes piece to_row ∧ piece.color = Color.red then b.red_kings + 1
    else b.red_kings,
   if promotes piece to_row ∧ piece.color = Color.black then b.black_kings + 1
    else b.black_kings)

/-- The capture step of lines 151-168 applied to the midpoint cell: the
midpoint is cleared unconditionally; the counters are decremented only when
a piece was there. -/
def captured_board (b : Board) (g2 : Grid) (rk bk : Int) (mr mc : Int) :
    Board :=
  match gridGet g2 mr mc with
  | some cap =>
    if cap.color = Color.red then
      { grid := gridSet g2 mr mc none
        red_left := b.red_left - 1
        black_left := b.black_left
        red_kings := if cap.king then rk - 1 else rk
        black_kings := bk }
    else
      { grid := gridSet g2 mr mc none
        red_left := b.red_left
        black_left := b.black_left - 1
        red_kings := rk
        black_kings := if cap.king then bk - 1 else bk }
  | none =>
    { grid := gridSet g2 mr mc none
      red_left := b.red_left
      black_left := b.black_left
      red_kings := rk
      black_kings := bk }

/-- `Board.move_piece(from_pos, to_pos)` (lines 121-170).  Returns `none` for
the Python error path (no piece at the source); otherwise the updated board
and the returned `captured` list, which for a row difference of 2 is exactly
the midpoint cell `((from_row+to_row)//2, (from_col+to_col)//2)`. -/
def Board.move_piece (b : Board) (fp tp : Pos) : Option (Board × List Pos) :=
  match gridGet b.grid fp.1 fp.2 with
  | none => none
  | some piece =>
    if (fp.1 - tp.1).natAbs = 2 then
      some (captured_board b (moved_grid b fp tp piece)
          (kings_after_promotion b piece tp.1).1
          (kings_after_promotion b piece tp.1).2
          ((fp.1 + tp.1) / 2) ((fp.2 + tp.2) / 2),
        [((fp.1 + tp.1) / 2, (fp.2 + tp.2) / 2)])
    else
      some
        ({ grid := moved_grid b fp tp piece
           red_left := b.red_left
           black_left := b.black_left
           red_kings := (kings_after_promotion b piece tp.1).1
           black_kings := (kings_after_promotion b piece tp.1).2 }, [])

/-- `Board.get_winner` (lines 258-264). -/
def Board.get_winner (b : Board) : Option Color :=
  if b.red_left ≤ 0 then some Color.black
  else if b.black_left ≤ 0 then some Color.red
  else none

/-- Recount of pieces of a color actually on the grid (kings only when
`kings_only`); the reference value the incremental counters should track. -/
def Board.count_pieces (b : Board) (color : Color) (kings_only : Bool) : Nat :=
  (allCells.filter fun p =>
    match b.get_piece p.1 p.2 with
    | some piece => piece.color = color ∧ (kings_only = true → piece.king = true)
    | none => False).length

/-- Dictionary lookup `d[key]` / `key in d` on an embedded Python dict. -/
def lookupA (m : AllMoves) (p : Pos) : Option MoveMap :=
  (m.find? fun e => e.1 = p).map (·.2)

/-- Membership of a destination in an inner move dictionary. -/
def mmHas (mm : MoveMap) (t : Pos) : Bool :=
  mm.any fun e => e.1 = t

/-!
## The game layer

`Game` keeps the fields of `checkers.Game` that carry engine state; the
pygame window, mode and player objects are presentation-only.
-/

structure Game where
  board : Board
  current_color : Color
  selected_piece : Option Pos
  valid_moves : AllMoves
  game_over : Bool
  winner : Option Color
deriving DecidableEq

/-- `Game.switch_turn` (lines 506-508). -/
def Game.switch_turn (g : Game) : Game :=
  { g with current_color := g.current_color.other }

/-- `Game._move(row, col)` (lines 574-607), for a game with a selected piece.
Returns the boolean result together with the updated game. -/
def Game.moveSel (g : Game) (row col : Int) : Bool × Game :=
  match g.selected_piece with
  | none => (false, g)
  | some fp =>
    match lookupA g.valid_moves fp with
    | some mm =>
      if mmHas mm (row, col) then
        match g.board.move_piece fp (row, col) with
        | some (b1, captured) =>
          let g1 := { g with board := b1, selected_piece := none }
          if captured ≠ [] then
            let jump_moves := b1.get_valid_moves row col true
            if jump_moves ≠ [] then
              (true, { g1 with
                        selected_piece := some (row, col)
                        valid_moves := [((row, col), jump_moves)] })
            else (true, g1.switch_turn)
          else (true, g1.switch_turn)
        | none => (false, g)
      else (false, g)
    | none => (false, g)

/-- `Game.select(row, col)` (lines 541-572): move the selected piece, or
clear the selection on an invalid destination (no reinterpretation), or pick
a new source. -/
def Game.select (g : Game) (row col : Int) : Bool × Game :=
  match g.selected_piece with
  | some _ =>
    let r := g.moveSel row col
    if r.1 then r
    else (false, { r.2 with selected_piece := none })
  | none =>
    match g.board.get_piece row col with
    | some piece =>
      if piece.color = g.current_color then
        match lookupA g.valid_moves (row, col) with
        | some mm => if mm ≠ [] then (true, { g with selected_piece := some (row, col) }) else (false, g)
        | none => (false, g)
      else (false, g)
    | none => (false, g)

/-- One pass of the state-refreshing prefix of the `Game.play` loop body
(lines 654-675) for a frame on which the side to move is human (so
`waiting_for_player` is false and no computer branch runs): the attrition
check against `get_winner`, then the refresh
`valid_moves = get_all_valid_moves(current_color)`, then the no-legal-moves
game-over check. -/
def Game.tick_refresh (g : Game) : Game :=
  let g0 :=
    match g.board.get_winner with
    | some w => { g with game_over := true, winner := some w }
    | none => g
  let vm := g0.board.get_all_valid_moves g0.current_color false
  let g1 := { g0 with valid_moves := vm }
  if vm = [] then
    { g1 with game_over := true, winner := some g1.current_color.other }
  else g1

/-!
## The accepted-move step relation

In play, a move of the side to move is accepted exactly when its source is a
key of the frame's `valid_moves = get_all_valid_moves(current_color)` and its
destination is a key of that source's inner dictionary (`Game.select` then
`Game._move`).  After a jump that leaves the moved piece another jump, the
color keeps the move; otherwise the turn switches.  `stepState` is that
transition on the engine state `(board, color)`; the two-click protocol adds
nothing else, because `valid_moves` is refreshed from
`get_all_valid_moves` on every frame before a click is processed.
-/

def stepState (b : Board) (c : Color) (fp tp : Pos) : Option (Board × Color) :=
  match lookupA (b.get_all_valid_moves c false) fp with
  | some mm =>
    if mmHas mm tp then
      match b.move_piece fp tp with
      | some (b1, captured) =>
        if captured ≠ [] ∧ b1.get_valid_moves tp.1 tp.2 true ≠ [] then
          some (b1, c)
        else some (b1, c.other)
      | none => none
    else none
  | none => none

/-- Fold a list of `(from, to)` moves through `stepState`. -/
def run_moves (s : Board × Color) : List (Pos × Pos) → Option (Board × Color)
  | [] => some s
  | m :: ms =>
    match stepState s.1 s.2 m.1 m.2 with
    | some s1 => run_moves s1 ms
    | none => none

/-- Game states reachable from the initial setup by accepted moves. -/
inductive Reachable : Board → Color → Prop where
  | base : Reachable initial_board Color.red
  | move {b c fp tp b1 c1} : Reachable b c →
      stepState b c fp tp = some (b1, c1) → Reachable b1 c1

/-!
## The computer player

`random.choice l` picks `l[i]` for a uniformly random `i < l.length`; the
index consumed by each call is passed explicitly (`r1` for the source pick,
`r2` for the destination pick), reduced modulo the list length so that every
index value denotes a valid outcome.
-/

def choiceIdx (n len : Nat) : Nat := n % len

/-- Lines 390-394 / 426-430: keep, per source, the destinations with a
non-empty capture list; drop sources left empty. -/
def jump_moves_of (vm : AllMoves) : AllMoves :=
  vm.filterMap fun e =>
    let jm := e.2.filter fun d => d.2 ≠ []
    if jm ≠ [] then some (e.1, jm) else none

/-- Lines 402-411 / 448-457: among sources holding a non-king piece, keep the
destinations on the promotion row.  (The Python dereferences the source piece
unconditionally; on the dictionaries the engine feeds it every source is
occupied, and an unoccupied source is skipped here.) -/
def king_moves_of (b : Board) (color : Color) (vm : AllMoves) : AllMoves :=
  vm.filterMap fun e =>
    match b.get_piece e.1.1 e.1.2 with
    | some piece =>
      if piece.king = false then
        let king_row : Int := if color = Color.red then 0 else 7
        let km := e.2.filter fun d => d.1.1 = king_row
        if km ≠ [] then some (e.1, km) else none
      else none
    | none => none

/-- Random `(source, destination)` pick from a move dictionary, as in lines
383-385: `random.choice(list(m.keys()))` twice. -/
def random_pair (m : AllMoves) (r1 r2 : Nat) : Option (Pos × Pos) :=
  match m.get? (choiceIdx r1 m.length) with
  | some e =>
    match e.2.get? (choiceIdx r2 e.2.length) with
    | some d => some (e.1, d.1)
    | none => none
  | none => none

/-- The capturing `(source, destination)` pairs of a move dictionary, with
the capture-list length the hard tier maximises (`len(captures)`, line 440),
in iteration order of the nested lines 438-439 loops. -/
def capture_entries (vm : AllMoves) : List (Pos × Pos × Nat) :=
  (jump_moves_of vm).flatMap fun e => e.2.map fun d => (e.1, d.1, d.2.length)

/-- One iteration of the lines 438-443 loop body: update `(best, most)` when
this pair's capture list is strictly longer than the best so far. -/
def hard_step (acc : Option (Pos × Pos) × Nat) (e : Pos × Pos × Nat) :
    Option (Pos × Pos) × Nat :=
  if e.2.2 > acc.2 then (some (e.1, e.2.1), e.2.2) else acc

/-- `ComputerPlayer.get_move` with `difficulty == 'hard'` (lines 423-468).
The capture branch is the lines 432-445 scan: the nested
`for from_pos ... for to_pos ...` loops traverse exactly `capture_entries vm`
in order, starting from `best = None, most_captures = 0`; `r1`, `r2` feed
the `random.choice` calls of the fallback branches only. -/
def get_move_hard (b : Board) (color : Color) (vm : AllMoves) (r1 r2 : Nat) :
    Option (Pos × Pos) :=
  if vm = [] then none
  else if jump_moves_of vm ≠ [] then
    ((capture_entries vm).foldl hard_step ((none : Option (Pos × Pos)), 0)).1
  else
    let km := king_moves_of b color vm
    if km ≠ [] then random_pair km r1 r2
    else random_pair vm r1 r2

/-- Probability that the medium-difficulty capture branch (lines 396-399)
returns the pair `pr`: a uniformly random source among the keys of
`jump_moves`, then a uniformly random destination among that source's keys. -/
def medium_capture_prob (vm : AllMoves) (pr : Pos × Pos) : ℚ :=
  let jm := jump_moves_of vm
  (jm.map fun e =>
    (1 / (jm.length : ℚ)) *
      (e.2.map fun d =>
        (1 / (e.2.length : ℚ)) * (if e.1 = pr.1 ∧ d.1 = pr.2 then 1 else 0)).sum).sum

/-- The capturing `(source, destination)` pairs of a move dictionary. -/
def capturing_pairs (vm : AllMoves) : List (Pos × Pos) :=
  (jump_moves_of vm).flatMap fun e => e.2.map fun d => (e.1, d.1)

/-!
## Concrete positions used as inputs below
-/

def emptyGrid : Grid := (List.range 8).map fun _ => (List.range 8).map fun _ => none

def placeAll (ps : List (Int × Int × Piece)) : Grid :=
  ps.foldl (fun g e => gridSet g e.1 e.2.1 (some e.2.2)) emptyGrid

/-- A red king on (1,2) (plus a black man so neither side is out of pieces),
with counters agreeing with the grid. -/
def c2_board : Board :=
  { grid := placeAll [(1, 2, ⟨Color.red, true⟩), (6, 1, ⟨Color.black, false⟩)]
    red_left := 1
    black_left := 1
    red_kings := 1
    black_kings := 0 }

/-- Chain-capture position: red men on (5,2) and (5,6), black men on (4,1),
(2,1) and (4,5).  Red's jump (5,2)->(3,0) captures (4,1) and leaves the
further jump (3,0)->(1,2) over (2,1); red's other piece (5,6) also has a
jump (5,6)->(3,4) over (4,5). -/
def c3_board : Board :=
  { grid := placeAll
      [(5, 2, ⟨Color.red, false⟩), (5, 6, ⟨Color.red, false⟩),
       (4, 1, ⟨Color.black, false⟩), (2, 1, ⟨Color.black, false⟩),
       (4, 5, ⟨Color.black, false⟩)]
    red_left := 2
    black_left := 3
    red_kings := 0
    black_kings := 0 }

def c3_g0 : Game :=
  { board := c3_board
    current_color := Color.red
    selected_piece := none
    valid_moves := []
    game_over := false
    winner := none }

/-- Frame refresh, then the two clicks performing the jump (5,2)->(3,0). -/
def c3_g1 : Game := c3_g0.tick_refresh

def c3_s1 : Bool × Game := c3_g1.select 5 2

def c3_s2 : Bool × Game := c3_s1.2.select 3 0

/-- The next frame's refresh (the loop body recomputing `valid_moves`). -/
def c3_g4 : Game := c3_s2.2.tick_refresh

/-- Click on the other red piece (5,6): first with the chain piece still
selected (deselects), then again (selects it), then its destination. -/
def c3_s3 : Bool × Game := c3_g4.select 5 6

def c3_s4 : Bool × Game := c3_s3.2.select 5 6

def c3_s5 : Bool × Game := c3_s4.2.select 3 4

/-- Reachable 16-move game: black promotes on (7,4) (move 13), the king walks
away and back, re-entering row 7 on the last move while already a king. -/
def c4_trace : List (Pos × Pos) :=
  [((5, 6), (4, 7)), ((2, 1), (3, 2)), ((5, 4), (4, 3)), ((3, 2), (5, 4)),
   ((6, 3), (4, 5)), ((1, 0), (2, 1)), ((7, 4), (6, 3)), ((2, 1), (3, 0)),
   ((4, 5), (3, 4)), ((2, 3), (4, 5)), ((5, 2), (4, 1)), ((3, 0), (5, 2)),
   ((5, 2), (7, 4)), ((7, 4), (5, 6)), ((7, 6), (6, 5)), ((5, 6), (7, 4))]

def c4_final : Board × Color :=
  (run_moves (initial_board, Color.red) c4_trace).getD (initial_board, Color.red)

/-- Two red pieces with jumps: (4,3) can jump two ways (over (3,2) to (2,1)
and over (3,4) to (2,5)); (6,5) has the single jump over (5,6) to (4,7). -/
def c8_board : Board :=
  { grid := placeAll
      [(4, 3, ⟨Color.red, false⟩), (6, 5, ⟨Color.red, false⟩),
       (3, 2, ⟨Color.black, false⟩), (3, 4, ⟨Color.black, false⟩),
       (5, 6, ⟨Color.black, false⟩)]
    red_left := 2
    black_left := 3
    red_kings := 0
    black_kings := 0 }

def c8_vm : AllMoves := c8_board.get_all_valid_moves Color.red false

/-- A game whose side to move has no pieces at all, hence no legal moves. -/
def c5_game : Game :=
  { board :=
      { grid := emptyGrid
        red_left := 1
        black_left := 1
        red_kings := 0
        black_kings := 0 }
    current_color := Color.red
    selected_piece := none
    valid_moves := []
    game_over := false
    winner := none }

/-- Counters of a position where black has been wiped out. -/
def c5_board : Board :=
  { grid := placeAll [(3, 2, ⟨Color.red, false⟩)]
    red_left := 1
    black_left := 0
    red_kings := 0
    black_kings := 0 }

/-- A game mid-selection: red has selected (5,2) (whose only legal
destination is (3,0)) and then clicks (5,6) — an invalid destination that is
itself a legal source. -/
def c6_game : Game :=
  { board := c3_board
    current_color := Color.red
    selected_piece := some (5, 2)
    valid_moves := c3_board.get_all_valid_moves Color.red false
    game_over := false
    winner := none }

/-- The same position with nothing selected and a click on black's piece
(4,1) — not a legal source for red. -/
def c6_game2 : Game :=
  { c6_game with selected_piece := none }

/-!
## Theorems
-/

theorem run_moves_reachable :
    ∀ (ms : List (Pos × Pos)) (s s' : Board × Color),
      run_moves s ms = some s' → Reachable s.1 s.2 → Reachable s'.1 s'.2 := by
  intro ms
  induction ms with
  | nil =>
    intro s s' h hr
    unfold run_moves at h
    rw [Option.some.injEq] at h
    rw [← h]
    exact hr
  | cons m ms ih =>
    intro s s' h hr
    unfold run_moves at h
    cases hs : stepState s.1 s.2 m.1 m.2 with
    | none => rw [hs] at h; exact absurd h (by simp)
    | some s1 =>
      rw [hs] at h
      exact ih s1 s' h (Reachable.move hr hs)

/-- C2: the claim that `move_piece` increments a king counter only for a
piece that is not already a king fails: `move_piece` (lines 143-149) tests
only the destination row, so a red king moving onto row 0 re-increments
`red_kings`.  Here `c2_board` holds a red king on (1,2) with `red_kings = 1`;
after the plain step to (0,1) the counter is 2 although no new king was
made. -/
theorem c2_king_recount_bug :
    c2_board.get_piece 1 2 = some ⟨Color.red, true⟩ ∧
    c2_board.red_kings = 1 ∧
    (c2_board.move_piece (1, 2) (0, 1)).map (fun r => (r.1.red_kings, r.2)) =
      some (2, []) ∧
    (c2_board.move_piece (1, 2) (0, 1)).map
        (fun r => r.1.count_pieces Color.red true) = some 1 := by
  decide

/-- C3: the forced-continuation lock fails.  From `c3_board`, red's accepted
jump (5,2)->(3,0) captures (4,1) and leaves the further jump (3,0)->(1,2), so
`Game._move` keeps red to move and restricts `valid_moves` to the landing
square — but the next frame of `Game.play` (line 662) recomputes
`valid_moves = get_all_valid_moves('red')`, after which the unrelated red
piece (5,6) is again a legal source: it can be selected and moved while the
chain of (3,0) is still pending. -/
theorem c3_chain_lock_bug :
    c3_s2.1 = true ∧
    c3_s2.2.current_color = Color.red ∧
    c3_s2.2.selected_piece = some (3, 0) ∧
    c3_s2.2.valid_moves = [((3, 0), [((1, 2), [(2, 1)])])] ∧
    c3_s2.2.board.get_piece 4 1 = none ∧
    c3_s2.2.board.get_valid_moves 3 0 true ≠ [] ∧
    c3_g4.current_color = Color.red ∧
    c3_g4.valid_moves =
      [((3, 0), [((1, 2), [(2, 1)])]), ((5, 6), [((3, 4), [(4, 5)])])] ∧
    c3_s4.1 = true ∧
    c3_s4.2.selected_piece = some (5, 6) ∧
    c3_s5.1 = true ∧
    c3_s5.2.board.get_piece 4 5 = none ∧
    c3_s5.2.board.get_piece 3 4 = some ⟨Color.red, false⟩ ∧
    c3_s5.2.board.get_piece 3 0 = some ⟨Color.red, false⟩ := by
  refine ⟨by decide, by decide, by decide, by decide, by decide, by decide,
    by decide, by decide, by decide, by decide, by decide, by decide,
    by decide, by decide⟩

/-- C4: the counter/recount invariant fails on a reachable state.  Along the
accepted 16-move game `c4_trace`, black's piece promotes on (7,4), walks
away, and re-enters row 7 as a king; `move_piece` increments `black_kings`
both times, so the reachable final position has `black_kings = 2` while only
one black king is on the grid. -/
theorem c4_kings_counter_desync :
    ∃ b : Board, Reachable b Color.red ∧
      b.black_kings = 2 ∧ b.count_pieces Color.black true = 1 := by
  refine ⟨c4_final.1, ?_, by decide, by decide⟩
  have h : run_moves (initial_board, Color.red) c4_trace = some c4_final := by decide
  have h2 := run_moves_reachable c4_trace (initial_board, Color.red) c4_final h
    Reachable.base
  have h3 : c4_final.2 = Color.red := by decide
  rw [h3] at h2
  exact h2

/-- C5: a side to move with no legal moves loses (the `Game.play` check at
lines 672-675, embedded in `tick_refresh`), and `get_winner` reports black
exactly on `red_left = 0` and red exactly on `black_left = 0`, for any
position's counters (nonnegative, not both zero). -/
theorem c5_win_detection :
    (∀ g : Game, g.board.get_all_valid_moves g.current_color false = [] →
      g.tick_refresh.game_over = true ∧
        g.tick_refresh.winner = some g.current_color.other) ∧
    (∀ b : Board, 0 ≤ b.red_left → 0 ≤ b.black_left →
      0 < b.red_left + b.black_left →
      (b.get_winner = some Color.black ↔ b.red_left = 0) ∧
      (b.get_winner = some Color.red ↔ b.black_left = 0) ∧
      (b.get_winner = none ↔ b.red_left ≠ 0 ∧ b.black_left ≠ 0)) := by
  constructor
  · intro g h
    unfold Game.tick_refresh
    cases hw : g.board.get_winner <;> simp [hw, h]
  · intro b hr hb hpos
    unfold Board.get_winner
    split_ifs with h1 h2 <;>
      refine ⟨?_, ?_, ?_⟩ <;> simp <;> omega

theorem c5_win_detection_witness :
    (c5_game.board.get_all_valid_moves c5_game.current_color false = [] ∧
      c5_game.tick_refresh.game_over = true ∧
      c5_game.tick_refresh.winner = some Color.black) ∧
    ((0 : Int) ≤ c5_board.red_left ∧ (0 : Int) ≤ c5_board.black_left ∧
      (0 : Int) < c5_board.red_left + c5_board.black_left ∧
      (c5_board.get_winner = some Color.red ↔ c5_board.black_left = 0)) :=
  ⟨⟨by decide, c5_win_detection.1 c5_game (by decide)⟩,
   ⟨by decide, by decide, by decide,
    (c5_win_detection.2 c5_board (by decide) (by decide) (by decide)).2.1⟩⟩

/-- C6: invalid clicks are boolean-signalled no-ops of `Game.select`.  With a
piece selected, a click on a cell that is not one of its listed destinations
returns `false` and only clears the selection — board, counters and side to
move are untouched and the click is not reinterpreted as a new source pick
inside the same call.  With nothing selected, a click that is not a legal
source (no own-color piece there with a non-empty move list) returns `false`
and changes nothing. -/
theorem c6_invalid_click_noop :
    (∀ (g : Game) (fp : Pos) (row col : Int), g.selected_piece = some fp →
      (∀ mm, lookupA g.valid_moves fp = some mm → mmHas mm (row, col) = false) →
      g.select row col = (false, { g with selected_piece := none })) ∧
    (∀ (g : Game) (row col : Int), g.selected_piece = none →
      (∀ piece, g.board.get_piece row col = some piece →
        piece.color = g.current_color →
        ∀ mm, lookupA g.valid_moves (row, col) = some mm → mm = []) →
      g.select row col = (false, g)) := by
  constructor
  · intro g fp row col hsel hdest
    unfold Game.select Game.moveSel
    rw [hsel]
    cases hl : lookupA g.valid_moves fp with
    | none => simp [hl]
    | some mm => simp [hl, hdest mm hl]
  · intro g row col hsel hsrc
    unfold Game.select
    rw [hsel]
    cases hp : g.board.get_piece row col with
    | none => simp
    | some piece =>
      by_cases hc : piece.color = g.current_color
      · cases hl : lookupA g.valid_moves (row, col) with
        | none => simp [hc]
        | some mm => simp [hc, hsrc piece hp hc mm hl]
      · simp [hc]

theorem c6_invalid_click_noop_witness :
    (c6_game.selected_piece = some (5, 2) ∧
      (∀ mm, lookupA c6_game.valid_moves (5, 2) = some mm →
        mmHas mm (5, 6) = false) ∧
      c6_game.select 5 6 = (false, { c6_game with selected_piece := none })) ∧
    (c6_game2.selected_piece = none ∧
      c6_game2.select 4 1 = (false, c6_game2)) :=
  ⟨⟨by decide, by decide,
    c6_invalid_click_noop.1 c6_game (5, 2) 5 6 (by decide) (by decide)⟩,
   ⟨by decide,
    c6_invalid_click_noop.2 c6_game2 4 1 (by decide) (by decide)⟩⟩

theorem get_piece_inb {b : Board} {r c : Int} {p : Piece}
    (h : b.get_piece r c = some p) : inb r c := by
  unfold Board.get_piece gridGet at h
  by_cases hb : inb r c
  · exact hb
  · rw [if_neg hb] at h
    exact absurd h (by simp)

theorem mem_allCells_nat {rn cn : Nat} (h2 : rn < 8) (h4 : cn < 8) :
    ((rn : Int), (cn : Int)) ∈ allCells := by
  unfold allCells
  rw [List.mem_flatMap]
  refine ⟨rn, List.mem_range.mpr h2, ?_⟩
  rw [List.mem_map]
  exact ⟨cn, List.mem_range.mpr h4, rfl⟩

theorem mem_allCells {r c : Int} (h : inb r c) : (r, c) ∈ allCells := by
  obtain ⟨h1, h2, h3, h4⟩ := h
  have hr : r = ((r.toNat : Nat) : Int) := by omega
  have hc : c = ((c.toNat : Nat) : Int) := by omega
  rw [hr, hc]
  exact mem_allCells_nat (by omega) (by omega)

theorem directions_mem {p : Piece} {d : Int × Int} (h : d ∈ directions p) :
    (d.1 = -1 ∨ d.1 = 1) ∧ (d.2 = -1 ∨ d.2 = 1) := by
  unfold directions at h
  rw [List.mem_append] at h
  rcases h with h | h <;> split at h <;>
    simp only [List.mem_cons, List.not_mem_nil, or_false] at h <;>
    rcases h with rfl | rfl <;> exact ⟨by omega, by omega⟩

theorem mem_jump_candidates {b : Board} {row col : Int} {piece : Piece}
    {t : Pos} {caps : List Pos}
    (h : (t, caps) ∈ jump_candidates b row col piece) :
    inb t.1 t.2 ∧
      ∃ d ∈ directions piece,
        t = (row + d.1 + d.1, col + d.2 + d.2) ∧
          caps = [(row + d.1, col + d.2)] := by
  unfold jump_candidates at h
  simp only [List.mem_filterMap] at h
  obtain ⟨d, hd, hf⟩ := h
  split at hf
  · split at hf
    · split at hf
      · split at hf
        · rename_i hinb2
          rw [Option.some.injEq, Prod.mk.injEq] at hf
          obtain ⟨ht, hcaps⟩ := hf
          refine ⟨?_, d, hd, ht.symm, hcaps.symm⟩
          rw [← ht]
          exact hinb2.1
        · exact absurd hf (by simp)
      · exact absurd hf (by simp)
    · exact absurd hf (by simp)
  · exact absurd hf (by simp)

theorem mem_simple_candidates {b : Board} {row col : Int} {piece : Piece}
    {t : Pos} {caps : List Pos}
    (h : (t, caps) ∈ simple_candidates b row col piece) :
    inb t.1 t.2 ∧ caps = [] ∧
      ∃ d ∈ directions piece, t = (row + d.1, col + d.2) := by
  unfold simple_candidates at h
  simp only [List.mem_filterMap] at h
  obtain ⟨d, hd, hf⟩ := h
  split at hf
  · rename_i hcond
    rw [Option.some.injEq, Prod.mk.injEq] at hf
    obtain ⟨ht, hcaps⟩ := hf
    refine ⟨?_, hcaps.symm, d, hd, ht.symm⟩
    rw [← ht]
    exact hcond.1
  · exact absurd hf (by simp)

theorem get_valid_moves_cases {b : Board} {row col : Int} {jo : Bool}
    {t : Pos} {caps : List Pos}
    (h : (t, caps) ∈ b.get_valid_moves row col jo) :
    ∃ piece, b.get_piece row col = some piece ∧
      ((t, caps) ∈ jump_candidates b row col piece ∨
        (t, caps) ∈ simple_candidates b row col piece) := by
  unfold Board.get_valid_moves at h
  split at h
  · exact absurd h (List.not_mem_nil _)
  · rename_i piece hp
    split at h
    · exact ⟨piece, hp, Or.inl h⟩
    · exact ⟨piece, hp, Or.inr h⟩

theorem get_valid_moves_dest {b : Board} {row col : Int} {jo : Bool}
    {t : Pos} {caps : List Pos}
    (h : (t, caps) ∈ b.get_valid_moves row col jo) :
    ∃ piece, b.get_piece row col = some piece ∧ inb t.1 t.2 ∧
      ∃ d ∈ directions piece,
        t = (row + d.1, col + d.2) ∨ t = (row + d.1 + d.1, col + d.2 + d.2) := by
  obtain ⟨piece, hp, hc⟩ := get_valid_moves_cases h
  rcases hc with hc | hc
  · obtain ⟨hinb, d, hd, ht, -⟩ := mem_jump_candidates hc
    exact ⟨piece, hp, hinb, d, hd, Or.inr ht⟩
  · obtain ⟨hinb, -, d, hd, ht⟩ := mem_simple_candidates hc
    exact ⟨piece, hp, hinb, d, hd, Or.inl ht⟩

theorem get_valid_moves_true_eq {b : Board} {row col : Int} {piece : Piece}
    (hp : b.get_piece row col = some piece) :
    b.get_valid_moves row col true = jump_candidates b row col piece := by
  unfold Board.get_valid_moves
  rw [hp]
  exact if_pos (Or.inr rfl)

theorem get_valid_moves_true_caps {b : Board} {row col : Int}
    {t : Pos} {caps : List Pos}
    (h : (t, caps) ∈ b.get_valid_moves row col true) : caps ≠ [] := by
  obtain ⟨piece, hp, hc⟩ := get_valid_moves_cases h
  have heq := get_valid_moves_true_eq hp
  rcases hc with hc | hc
  · obtain ⟨-, d, -, -, hcaps⟩ := mem_jump_candidates hc
    rw [hcaps]
    exact List.cons_ne_nil _ _
  · -- with `jump_only = true` the simple branch is never taken
    exfalso
    rw [heq] at h
    obtain ⟨-, d, -, -, hcaps⟩ := mem_jump_candidates h
    obtain ⟨-, hnil, -⟩ := mem_simple_candidates hc
    rw [hnil] at hcaps
    exact absurd hcaps (by simp)

theorem mem_jump_entries {b : Board} {color : Color} {p : Pos} {mm : MoveMap}
    (h : (p, mm) ∈ jump_entries b color) :
    ∃ piece, b.get_piece p.1 p.2 = some piece ∧ piece.color = color ∧
      mm = b.get_valid_moves p.1 p.2 true ∧ mm ≠ [] := by
  unfold jump_entries at h
  simp only [List.mem_filterMap] at h
  obtain ⟨q, hq, hf⟩ := h
  split at hf
  · rename_i piece hp
    split at hf
    · rename_i hcol
      split at hf
      · rename_i hmoves
        rw [Option.some.injEq, Prod.mk.injEq] at hf
        obtain ⟨hqp, hmm⟩ := hf
        subst hqp
        exact ⟨piece, hp, hcol, hmm.symm, hmm ▸ hmoves⟩
      · exact absurd hf (by simp)
    · exact absurd hf (by simp)
  · exact absurd hf (by simp)

theorem jump_entries_ne_nil {b : Board} {color : Color} {r cc : Int}
    {piece : Piece} (hp : b.get_piece r cc = some piece)
    (hc : piece.color = color) (hm : b.get_valid_moves r cc true ≠ []) :
    jump_entries b color ≠ [] := by
  refine List.ne_nil_of_mem (a := ((r, cc), b.get_valid_moves r cc true)) ?_
  unfold jump_entries
  rw [List.mem_filterMap]
  refine ⟨(r, cc), mem_allCells (get_piece_inb hp), ?_⟩
  simp only [hp, hc, if_pos, hm]
  simp [hm]

theorem get_all_valid_moves_eq_jump {b : Board} {color : Color}
    (h : jump_entries b color ≠ []) :
    b.get_all_valid_moves color false = jump_entries b color := by
  unfold Board.get_all_valid_moves
  rw [if_pos (Or.inl h)]

/-- C1: if any piece of `color` has a jump, `get_all_valid_moves` (lines
219-256) returns only pieces with jump candidates and exactly their jump
candidates: every listed source is an own-color piece whose entry is its
`get_valid_moves(..., jump_only=True)` map, that map is non-empty (a piece
with no candidates is simply absent), and every listed destination carries a
non-empty capture list. -/
theorem c1_mandatory_capture {b : Board} {c : Color}
    (h : ∃ r cc piece, b.get_piece r cc = some piece ∧ piece.color = c ∧
      b.get_valid_moves r cc true ≠ []) :
    ∀ p mm, (p, mm) ∈ b.get_all_valid_moves c false →
      mm = b.get_valid_moves p.1 p.2 true ∧ mm ≠ [] ∧
      (∃ piece, b.get_piece p.1 p.2 = some piece ∧ piece.color = c) ∧
      ∀ t caps, (t, caps) ∈ mm → caps ≠ [] := by
  obtain ⟨r, cc, piece, hp, hc, hm⟩ := h
  have hne := jump_entries_ne_nil hp hc hm
  intro p mm hmem
  rw [get_all_valid_moves_eq_jump hne] at hmem
  obtain ⟨piece2, hp2, hc2, hmm, hmmne⟩ := mem_jump_entries hmem
  refine ⟨hmm, hmmne, ⟨piece2, hp2, hc2⟩, ?_⟩
  intro t caps hcaps
  rw [hmm] at hcaps
  exact get_valid_moves_true_caps hcaps

theorem c1_mandatory_capture_witness :
    (c3_board.get_piece 5 2 = some ⟨Color.red, false⟩ ∧
      c3_board.get_valid_moves 5 2 true ≠ []) ∧
    ∀ p mm, (p, mm) ∈ c3_board.get_all_valid_moves Color.red false →
      mm = c3_board.get_valid_moves p.1 p.2 true ∧ mm ≠ [] ∧
      (∃ piece, c3_board.get_piece p.1 p.2 = some piece ∧
        piece.color = Color.red) ∧
      ∀ t caps, (t, caps) ∈ mm → caps ≠ [] :=
  ⟨⟨by decide, by decide⟩,
   c1_mandatory_capture
     ⟨5, 2, ⟨Color.red, false⟩, by decide, by decide, by decide⟩⟩

theorem gridGet_not_inb {g : Grid} {r c : Int} (h : ¬ inb r c) :
    gridGet g r c = none := by
  unfold gridGet
  rw [if_neg h]

theorem getD_set_self (l : List α) (i : Nat) (a d : α) :
    (l.set i a).getD i d = if i < l.length then a else d := by
  rw [List.getD_eq_getElem?_getD, List.getElem?_set_self']
  by_cases h : i < l.length
  · rw [List.getElem?_eq_getElem h]
    simp [h]
  · rw [List.getElem?_eq_none (by omega)]
    simp [h]

theorem getD_set_ne (l : List α) {i j : Nat} (a d : α) (h : i ≠ j) :
    (l.set i a).getD j d = l.getD j d := by
  rw [List.getD_eq_getElem?_getD, List.getD_eq_getElem?_getD,
    List.getElem?_set_ne h]

theorem Grid.WF_gridSet {g : Grid} {r c : Int} {v : Option Piece}
    (h : Grid.WF g) : Grid.WF (gridSet g r c v) := by
  unfold gridSet
  split
  · rename_i hin
    obtain ⟨h1, h2, h3, h4⟩ := hin
    obtain ⟨hlen, hrows⟩ := h
    constructor
    · rw [List.length_set]
      exact hlen
    · intro row hrow
      rcases List.mem_or_eq_of_mem_set hrow with hr | hr
      · exact hrows row hr
      · have hlt : r.toNat < g.length := by omega
        rw [hr, List.length_set, List.getD_eq_getElem?_getD,
          List.getElem?_eq_getElem hlt, Option.getD_some]
        exact hrows _ (List.getElem_mem hlt)
  · exact h

theorem gridGet_gridSet_self {g : Grid} {r c : Int} {v : Option Piece}
    (hw : Grid.WF g) (hin : inb r c) :
    gridGet (gridSet g r c v) r c = v := by
  obtain ⟨h1, h2, h3, h4⟩ := hin
  obtain ⟨hlen, hrows⟩ := hw
  unfold gridGet gridSet
  rw [if_pos ⟨h1, h2, h3, h4⟩, if_pos ⟨h1, h2, h3, h4⟩]
  have hr : r.toNat < g.length := by omega
  have hcl : c.toNat < (g[r.toNat]?.getD ([] : List (Option Piece))).length := by
    rw [List.getElem?_eq_getElem hr, Option.getD_some,
      hrows _ (List.getElem_mem hr)]
    omega
  simp only [List.getD_eq_getElem?_getD]
  rw [List.getElem?_set_self hr, Option.getD_some,
    List.getElem?_set_self hcl, Option.getD_some]

theorem gridGet_gridSet_ne {g : Grid} {r c r' c' : Int} {v : Option Piece}
    (hne : (r', c') ≠ (r, c)) :
    gridGet (gridSet g r c v) r' c' = gridGet g r' c' := by
  unfold gridGet gridSet
  by_cases hin : inb r c
  · rw [if_pos hin]
    by_cases hin' : inb r' c'
    · rw [if_pos hin', if_pos hin']
      obtain ⟨a1, a2, a3, a4⟩ := hin
      obtain ⟨b1, b2, b3, b4⟩ := hin'
      simp only [List.getD_eq_getElem?_getD]
      by_cases hr : r'.toNat = r.toNat
      · have hreq : r' = r := by omega
        have hcne : c.toNat ≠ c'.toNat := by
          intro hceq
          exact hne (by rw [hreq, show c' = c by omega])
        rw [hr]
        by_cases hlt : r.toNat < g.length
        · rw [List.getElem?_set_self hlt, Option.getD_some,
            List.getElem?_set_ne hcne, List.getElem?_eq_getElem hlt,
            Option.getD_some]
        · rw [List.set_eq_of_length_le (by omega)]
      · rw [List.getElem?_set_ne (fun hx => hr hx.symm)]
    · rw [if_neg hin', if_neg hin']
  · rw [if_neg hin]

theorem gridGet_gridSet_none_self {g : Grid} (hw : Grid.WF g) (r c : Int) :
    gridGet (gridSet g r c none) r c = none := by
  by_cases hin : inb r c
  · exact gridGet_gridSet_self hw hin
  · exact gridGet_not_inb hin

theorem captured_board_grid (b : Board) (g2 : Grid) (rk bk : Int)
    (mr mc : Int) :
    (captured_board b g2 rk bk mr mc).grid = gridSet g2 mr mc none := by
  unfold captured_board
  split
  · split <;> rfl
  · rfl

theorem moved_grid_wf {b : Board} (hw : Grid.WF b.grid) (fp tp : Pos)
    (piece : Piece) : Grid.WF (moved_grid b fp tp piece) :=
  Grid.WF_gridSet (Grid.WF_gridSet hw)

/-- A cell other than the destination and the source holds the same piece in
`moved_grid` as on the original board. -/
theorem moved_grid_other {b : Board} {fp tp : Pos} {piece : Piece}
    {r c : Int} (hw : Grid.WF b.grid) (htp : (r, c) ≠ tp) {p : Piece}
    (hp : gridGet (moved_grid b fp tp piece) r c = some p) :
    b.get_piece r c = some p := by
  unfold moved_grid at hp
  rw [gridGet_gridSet_ne (fun hx => htp (hx.trans (Prod.mk.eta)))] at hp
  by_cases hfp : (r, c) = fp
  · rw [show r = fp.1 from congrArg Prod.fst hfp,
      show c = fp.2 from congrArg Prod.snd hfp,
      gridGet_gridSet_none_self hw] at hp
    exact absurd hp (by simp)
  · rw [gridGet_gridSet_ne (fun hx => hfp (hx.trans (Prod.mk.eta)))] at hp
    exact hp

/-- The cells `move_piece` touches: the result grid is well-formed, and every
piece on it is either the moved piece now at `to_pos` or a piece of the
original board. -/
theorem move_piece_grid_sub {b : Board} {fp tp : Pos} {b1 : Board}
    {cap : List Pos} (hw : Grid.WF b.grid)
    (hmv : b.move_piece fp tp = some (b1, cap)) :
    Grid.WF b1.grid ∧
      ∀ r c p, b1.get_piece r c = some p →
        (r, c) = tp ∨ b.get_piece r c = some p := by
  unfold Board.move_piece at hmv
  split at hmv
  · exact absurd hmv (by simp)
  · rename_i piece hpc
    split at hmv
    · -- jump branch
      rw [Option.some.injEq, Prod.mk.injEq] at hmv
      obtain ⟨hb1, -⟩ := hmv
      rw [← hb1]
      constructor
      · rw [captured_board_grid]
        exact Grid.WF_gridSet (moved_grid_wf hw fp tp piece)
      · intro r c p hp
        by_cases htp : (r, c) = tp
        · exact Or.inl htp
        · right
          unfold Board.get_piece at hp
          rw [captured_board_grid] at hp
          by_cases hmid : (r, c) = ((fp.1 + tp.1) / 2, (fp.2 + tp.2) / 2)
          · rw [show r = (fp.1 + tp.1) / 2 from congrArg Prod.fst hmid,
              show c = (fp.2 + tp.2) / 2 from congrArg Prod.snd hmid,
              gridGet_gridSet_none_self (moved_grid_wf hw fp tp piece)] at hp
            exact absurd hp (by simp)
          · rw [gridGet_gridSet_ne
              (fun hx => hmid (hx.trans (Prod.mk.eta)))] at hp
            exact moved_grid_other hw htp hp
    · -- plain step
      rw [Option.some.injEq, Prod.mk.injEq] at hmv
      obtain ⟨hb1, -⟩ := hmv
      rw [← hb1]
      constructor
      · exact moved_grid_wf hw fp tp piece
      · intro r c p hp
        by_cases htp : (r, c) = tp
        · exact Or.inl htp
        · exact Or.inr (moved_grid_other hw htp hp)

theorem lookupA_mem {m : AllMoves} {p : Pos} {mm : MoveMap}
    (h : lookupA m p = some mm) : (p, mm) ∈ m := by
  unfold lookupA at h
  rw [Option.map_eq_some'] at h
  obtain ⟨e, hfind, he2⟩ := h
  have hmem := List.mem_of_find?_eq_some hfind
  have hp1 : e.1 = p := by simpa using List.find?_some hfind
  have he : e = (p, mm) := Prod.ext hp1 he2
  exact he ▸ hmem

theorem mmHas_mem {mm : MoveMap} {t : Pos} (h : mmHas mm t = true) :
    ∃ caps, (t, caps) ∈ mm := by
  unfold mmHas at h
  rw [List.any_eq_true] at h
  obtain ⟨e, he, hp⟩ := h
  have hp1 : e.1 = t := by simpa using hp
  exact ⟨e.2, by rw [← hp1]; simpa using he⟩

theorem mem_all_entries {b : Board} {color : Color} {p : Pos} {mm : MoveMap}
    (h : (p, mm) ∈ all_entries b color) :
    ∃ piece, b.get_piece p.1 p.2 = some piece ∧ piece.color = color ∧
      mm = b.get_valid_moves p.1 p.2 false ∧ mm ≠ [] := by
  unfold all_entries at h
  simp only [List.mem_filterMap] at h
  obtain ⟨q, hq, hf⟩ := h
  split at hf
  · rename_i piece hp
    split at hf
    · rename_i hcol
      split at hf
      · rename_i hmoves
        rw [Option.some.injEq, Prod.mk.injEq] at hf
        obtain ⟨hqp, hmm⟩ := hf
        subst hqp
        exact ⟨piece, hp, hcol, hmm.symm, hmm ▸ hmoves⟩
      · exact absurd hf (by simp)
    · exact absurd hf (by simp)
  · exact absurd hf (by simp)

theorem mem_get_all_valid_moves {b : Board} {color : Color} {jo : Bool}
    {p : Pos} {mm : MoveMap} (h : (p, mm) ∈ b.get_all_valid_moves color jo) :
    ∃ piece, b.get_piece p.1 p.2 = some piece ∧ piece.color = color ∧
      mm ≠ [] ∧
      (mm = b.get_valid_moves p.1 p.2 true ∨
        mm = b.get_valid_moves p.1 p.2 false) := by
  unfold Board.get_all_valid_moves at h
  split at h
  · obtain ⟨piece, hp, hc, hmm, hne⟩ := mem_jump_entries h
    exact ⟨piece, hp, hc, hne, Or.inl hmm⟩
  · obtain ⟨piece, hp, hc, hmm, hne⟩ := mem_all_entries h
    exact ⟨piece, hp, hc, hne, Or.inr hmm⟩

theorem stepState_elim {b : Board} {c : Color} {fp tp : Pos} {b1 : Board}
    {c1 : Color} (h : stepState b c fp tp = some (b1, c1)) :
    ∃ mm caps, lookupA (b.get_all_valid_moves c false) fp = some mm ∧
      (tp, caps) ∈ mm ∧ ∃ captured, b.move_piece fp tp = some (b1, captured) := by
  unfold stepState at h
  split at h
  · rename_i mm hlk
    split at h
    · rename_i hhas
      split at h
      · rename_i b2 captured hmv
        obtain ⟨caps, hcaps⟩ := mmHas_mem hhas
        split at h <;>
          (rw [Option.some.injEq, Prod.mk.injEq] at h;
           obtain ⟨hb, -⟩ := h;
           exact ⟨mm, caps, hlk, hcaps, captured, hb ▸ hmv⟩)
      · exact absurd h (by simp)
    · exact absurd h (by simp)
  · exact absurd h (by simp)

/-- Counter/grid invariant carried through all reachability proofs: the grid
is an 8 x 8 list-of-lists and every occupied cell is a dark square. -/
def BoardInv (b : Board) : Prop :=
  Grid.WF b.grid ∧ ∀ r c p, b.get_piece r c = some p → (r + c) % 2 = 1

theorem initial_inv : BoardInv initial_board := by
  constructor
  · decide
  · intro r c p h
    obtain ⟨h1, h2, h3, h4⟩ := get_piece_inb h
    unfold Board.get_piece gridGet initial_board at h
    rw [if_pos ⟨h1, h2, h3, h4⟩] at h
    have hr8 : r.toNat < 8 := by omega
    have hc8 : c.toNat < 8 := by omega
    simp only [List.getD_eq_getElem?_getD, List.getElem?_map,
      List.getElem?_range hr8, Option.map_some', Option.getD_some] at h
    unfold setup_row at h
    simp only [List.getD_eq_getElem?_getD, List.getElem?_map,
      List.getElem?_range hc8, Option.map_some', Option.getD_some] at h
    by_cases hpar : (r.toNat + c.toNat) % 2 = 1
    · omega
    · rw [if_neg hpar] at h
      exact absurd h (by simp)

theorem stepState_inv {b : Board} {c : Color} {fp tp : Pos} {b1 : Board}
    {c1 : Color} (h : stepState b c fp tp = some (b1, c1))
    (hinv : BoardInv b) : BoardInv b1 := by
  obtain ⟨mm, caps, hlk, hmem, captured, hmv⟩ := stepState_elim h
  obtain ⟨piece, hp, hcol, hne, hor⟩ :=
    mem_get_all_valid_moves (lookupA_mem hlk)
  have hdest : (tp, caps) ∈ b.get_valid_moves fp.1 fp.2 true ∨
      (tp, caps) ∈ b.get_valid_moves fp.1 fp.2 false := by
    rcases hor with hmm | hmm
    · exact Or.inl (hmm ▸ hmem)
    · exact Or.inr (hmm ▸ hmem)
  have hshape : ∃ piece2, b.get_piece fp.1 fp.2 = some piece2 ∧
      inb tp.1 tp.2 ∧ ∃ d ∈ directions piece2,
        tp = (fp.1 + d.1, fp.2 + d.2) ∨
          tp = (fp.1 + d.1 + d.1, fp.2 + d.2 + d.2) := by
    rcases hdest with hd | hd
    · exact get_valid_moves_dest hd
    · exact get_valid_moves_dest hd
  obtain ⟨piece2, hp2, hinb, d, hd, hto⟩ := hshape
  have hfppar : (fp.1 + fp.2) % 2 = 1 := hinv.2 fp.1 fp.2 piece2 hp2
  have htppar : (tp.1 + tp.2) % 2 = 1 := by
    obtain ⟨hd1, hd2⟩ := directions_mem hd
    rcases hto with hto | hto <;>
      (rw [Prod.ext_iff] at hto
       obtain ⟨ht1, ht2⟩ := hto
       rcases hd1 with hx | hx <;> rcases hd2 with hy | hy <;> omega)
  obtain ⟨hwf1, hsub⟩ := move_piece_grid_sub hinv.1 hmv
  refine ⟨hwf1, ?_⟩
  intro r cc p hp1
  rcases hsub r cc p hp1 with heq | hold
  · rw [show r = tp.1 from congrArg Prod.fst heq,
      show cc = tp.2 from congrArg Prod.snd heq]
    exact htppar
  · exact hinv.2 r cc p hold

theorem reachable_inv {b : Board} {c : Color} (h : Reachable b c) :
    BoardInv b := by
  induction h with
  | base => exact initial_inv
  | move hr hs ih => exact stepState_inv hs ih

/-- C9: in every state reachable from the initial setup by accepted moves,
every occupied cell lies on a dark square: the initial layout places pieces
only where `(row+col) % 2 == 1`, and every generated move steps one or two
cells along a diagonal, preserving the parity. -/
theorem c9_dark_squares {b : Board} {c : Color} (h : Reachable b c) :
    ∀ r cc p, b.get_piece r cc = some p → (r + cc) % 2 = 1 :=
  fun _ _ _ hp => (reachable_inv h).2 _ _ _ hp

theorem c9_dark_squares_witness :
    initial_board.get_piece 0 1 = some ⟨Color.black, false⟩ ∧
      ((0 : Int) + 1) % 2 = 1 :=
  ⟨by decide,
   c9_dark_squares Reachable.base 0 1 ⟨Color.black, false⟩ (by decide)⟩

/-- C10: any `move_piece` call with a row difference of 2 returns exactly the
midpoint cell `((from_row+to_row)//2, (from_col+to_col)//2)` as the captured
list and clears that cell, even when it held no piece; the live counters are
decremented only when a piece was actually present there (and the king
counters are never decremented in that case). -/
theorem c10_jump_midpoint {b : Board} {fr fc tr tc : Int} {piece : Piece}
    (hw : Grid.WF b.grid) (hfrom : inb fr fc) (hto : inb tr tc)
    (hp : b.get_piece fr fc = some piece) (hjump : (fr - tr).natAbs = 2) :
    ∃ b1, b.move_piece (fr, fc) (tr, tc) =
        some (b1, [((fr + tr) / 2, (fc + tc) / 2)]) ∧
      b1.get_piece ((fr + tr) / 2) ((fc + tc) / 2) = none ∧
      (b.get_piece ((fr + tr) / 2) ((fc + tc) / 2) = none →
        b1.red_left = b.red_left ∧ b1.black_left = b.black_left ∧
        b.red_kings ≤ b1.red_kings ∧ b.black_kings ≤ b1.black_kings) ∧
      (∀ cap, b.get_piece ((fr + tr) / 2) ((fc + tc) / 2) = some cap →
        (cap.color = Color.red →
          b1.red_left = b.red_left - 1 ∧ b1.black_left = b.black_left) ∧
        (cap.color = Color.black →
          b1.black_left = b.black_left - 1 ∧ b1.red_left = b.red_left)) := by
  obtain ⟨hf1, hf2, hf3, hf4⟩ := hfrom
  obtain ⟨ht1, ht2, ht3, ht4⟩ := hto
  have hg2wf : Grid.WF (moved_grid b (fr, fc) (tr, tc) piece) :=
    moved_grid_wf hw (fr, fc) (tr, tc) piece
  have hmidne_t : (((fr + tr) / 2, (fc + tc) / 2) : Pos) ≠ (tr, tc) := by
    intro hx
    have h1 := congrArg Prod.fst hx
    simp only at h1
    omega
  have hmidne_f : (((fr + tr) / 2, (fc + tc) / 2) : Pos) ≠ (fr, fc) := by
    intro hx
    have h1 := congrArg Prod.fst hx
    simp only at h1
    omega
  have hg2mid : gridGet (moved_grid b (fr, fc) (tr, tc) piece)
      ((fr + tr) / 2) ((fc + tc) / 2) =
      b.get_piece ((fr + tr) / 2) ((fc + tc) / 2) := by
    unfold moved_grid
    rw [gridGet_gridSet_ne (fun hx => hmidne_t (hx.trans (Prod.mk.eta))),
      gridGet_gridSet_ne (fun hx => hmidne_f (hx.trans (Prod.mk.eta)))]
    rfl
  refine ⟨captured_board b (moved_grid b (fr, fc) (tr, tc) piece)
      (kings_after_promotion b piece (tr, tc).1).1
      (kings_after_promotion b piece (tr, tc).1).2
      ((fr + tr) / 2) ((fc + tc) / 2), ?_, ?_, ?_, ?_⟩
  · unfold Board.move_piece
    rw [show gridGet b.grid (fr, fc).1 (fr, fc).2 = some piece from hp]
    rw [show (((fr, fc) : Pos).1 - ((tr, tc) : Pos).1).natAbs = 2 from hjump]
    rfl
  · show gridGet (captured_board _ _ _ _ _ _).grid _ _ = none
    rw [captured_board_grid]
    exact gridGet_gridSet_none_self hg2wf _ _
  · intro hmid
    unfold captured_board
    rw [hg2mid, hmid]
    refine ⟨rfl, rfl, ?_, ?_⟩ <;>
      (unfold kings_after_promotion
       dsimp only
       split <;> omega)
  · intro cap hmid
    unfold captured_board
    rw [hg2mid, hmid]
    dsimp only
    constructor
    · intro hcol
      rw [if_pos hcol]
      exact ⟨rfl, rfl⟩
    · intro hcol
      rw [if_neg (show ¬ cap.color = Color.red by rw [hcol]; decide)]
      exact ⟨rfl, rfl⟩

/-- A jump over an empty midpoint: red man on (4,3), nothing else on the
board, jumping to (2,1) across the empty (3,2). -/
def c10_board : Board :=
  { grid := placeAll [(4, 3, ⟨Color.red, false⟩)]
    red_left := 1
    black_left := 1
    red_kings := 0
    black_kings := 0 }

theorem c10_jump_midpoint_witness :
    (Grid.WF c10_board.grid ∧ inb 4 3 ∧ inb 2 1 ∧
      c10_board.get_piece 4 3 = some (Piece.mk Color.red false) ∧
      ((4 : Int) - 2).natAbs = 2) ∧
    ∃ b1, c10_board.move_piece (4, 3) (2, 1) =
        some (b1, [(((4 : Int) + 2) / 2, ((3 : Int) + 1) / 2)]) ∧
      b1.get_piece (((4 : Int) + 2) / 2) (((3 : Int) + 1) / 2) = none ∧
      (c10_board.get_piece (((4 : Int) + 2) / 2) (((3 : Int) + 1) / 2) = none →
        b1.red_left = c10_board.red_left ∧
        b1.black_left = c10_board.black_left ∧
        c10_board.red_kings ≤ b1.red_kings ∧
        c10_board.black_kings ≤ b1.black_kings) ∧
      (∀ cap, c10_board.get_piece (((4 : Int) + 2) / 2) (((3 : Int) + 1) / 2) =
          some cap →
        (cap.color = Color.red →
          b1.red_left = c10_board.red_left - 1 ∧
            b1.black_left = c10_board.black_left) ∧
        (cap.color = Color.black →
          b1.black_left = c10_board.black_left - 1 ∧
            b1.red_left = c10_board.red_left)) :=
  ⟨⟨by decide, by decide, by decide, by decide, by decide⟩,
   @c10_jump_midpoint c10_board 4 3 2 1 (Piece.mk Color.red false)
     (by decide) (by decide) (by decide) (by decide) (by decide)⟩

/-- Specification of the first-strict-maximum scan: folding `hard_step`
either leaves the accumulator untouched (every entry bounded by it) or
returns the first entry whose count strictly exceeds the accumulator and
every other count. -/
theorem hard_foldl_spec (L : List (Pos × Pos × Nat))
    (acc : Option (Pos × Pos) × Nat) :
    (L.foldl hard_step acc = acc ∧
      ∀ (j : Nat) (e : Pos × Pos × Nat), L[j]? = some e → e.2.2 ≤ acc.2) ∨
    (∃ (i : Nat) (e : Pos × Pos × Nat), L[i]? = some e ∧
      L.foldl hard_step acc = (some (e.1, e.2.1), e.2.2) ∧ acc.2 < e.2.2 ∧
      (∀ (j : Nat) (e' : Pos × Pos × Nat),
        L[j]? = some e' → j < i → e'.2.2 < e.2.2) ∧
      (∀ (j : Nat) (e' : Pos × Pos × Nat),
        L[j]? = some e' → e'.2.2 ≤ e.2.2)) := by
  induction L generalizing acc with
  | nil =>
    left
    exact ⟨rfl, fun j e h => absurd h (by simp)⟩
  | cons a L ih =>
    rw [List.foldl_cons]
    by_cases ha : a.2.2 > acc.2
    · rw [show hard_step acc a = (some (a.1, a.2.1), a.2.2) from if_pos ha]
      rcases ih (some (a.1, a.2.1), a.2.2) with ⟨heq, hbound⟩ |
        ⟨i, e, hget, heq, hgt, hprev, hmax⟩
      · right
        refine ⟨0, a, List.getElem?_cons_zero, heq, ha, ?_, ?_⟩
        · intro j e' hj hji
          omega
        · intro j e' hj
          cases j with
          | zero =>
            rw [List.getElem?_cons_zero, Option.some.injEq] at hj
            rw [← hj]
          | succ j => rw [List.getElem?_cons_succ] at hj; exact hbound j e' hj
      · right
        refine ⟨i + 1, e, by rw [List.getElem?_cons_succ]; exact hget, heq, by omega, ?_, ?_⟩
        · intro j e' hj hji
          cases j with
          | zero =>
            rw [List.getElem?_cons_zero, Option.some.injEq] at hj
            rw [← hj]
            exact hgt
          | succ j => rw [List.getElem?_cons_succ] at hj; exact hprev j e' hj (by omega)
        · intro j e' hj
          cases j with
          | zero =>
            rw [List.getElem?_cons_zero, Option.some.injEq] at hj
            rw [← hj]
            omega
          | succ j => rw [List.getElem?_cons_succ] at hj; exact hmax j e' hj
    · rw [show hard_step acc a = acc from if_neg ha]
      rcases ih acc with ⟨heq, hbound⟩ | ⟨i, e, hget, heq, hgt, hprev, hmax⟩
      · left
        refine ⟨heq, ?_⟩
        intro j e' hj
        cases j with
        | zero =>
          rw [List.getElem?_cons_zero, Option.some.injEq] at hj
          rw [← hj]
          omega
        | succ j => rw [List.getElem?_cons_succ] at hj; exact hbound j e' hj
      · right
        refine ⟨i + 1, e, by rw [List.getElem?_cons_succ]; exact hget, heq, hgt, ?_, ?_⟩
        · intro j e' hj hji
          cases j with
          | zero =>
            rw [List.getElem?_cons_zero, Option.some.injEq] at hj
            rw [← hj]
            omega
          | succ j => rw [List.getElem?_cons_succ] at hj; exact hprev j e' hj (by omega)
        · intro j e' hj
          cases j with
          | zero =>
            rw [List.getElem?_cons_zero, Option.some.injEq] at hj
            rw [← hj]
            omega
          | succ j => rw [List.getElem?_cons_succ] at hj; exact hmax j e' hj

/-- Every flattened capture entry has a capture list of length at least 1
(the medium/hard filters keep only destinations with non-empty lists). -/
theorem capture_entries_pos {vm : AllMoves} :
    ∀ e ∈ capture_entries vm, 1 ≤ e.2.2 := by
  intro e he
  unfold capture_entries at he
  rw [List.mem_flatMap] at he
  obtain ⟨en, hen, hmem⟩ := he
  rw [List.mem_map] at hmem
  obtain ⟨d, hd, hde⟩ := hmem
  unfold jump_moves_of at hen
  rw [List.mem_filterMap] at hen
  obtain ⟨e0, he0, hf⟩ := hen
  dsimp only at hf
  split at hf
  · rename_i hne
    rw [Option.some.injEq] at hf
    have hd2 : d ∈ e0.2.filter (fun d => decide ¬d.2 = []) := by
      have hsnd : en.2 = e0.2.filter (fun d => decide ¬d.2 = []) :=
        congrArg Prod.snd hf.symm
      rw [← hsnd]
      exact hd
    have hkeep := (List.mem_filter.mp hd2).2
    rw [← hde]
    have hlen : d.2 ≠ [] := by simpa using hkeep
    have hpos : 0 < d.2.length := List.length_pos.mpr hlen
    exact hpos
  · exact absurd hf (by simp)

theorem capture_entries_ne_nil_of_jump {vm : AllMoves}
    (h : capture_entries vm ≠ []) :
    jump_moves_of vm ≠ [] ∧ vm ≠ [] := by
  constructor
  · intro hjm
    exact h (by unfold capture_entries; rw [hjm]; rfl)
  · intro hvm
    exact h (by unfold capture_entries jump_moves_of; rw [hvm]; rfl)

/-- C7: when a capture is available, the hard tier deterministically returns
the first `(source, destination)` pair (in the nested iteration order of
lines 438-439) whose capture list is longest: the result does not depend on
the random draws, the returned entry's length bounds every entry, and every
strictly earlier entry is strictly shorter. -/
theorem c7_hard_first_max {b : Board} {color : Color} {vm : AllMoves}
    (h : capture_entries vm ≠ []) :
    ∀ r1 r2 r1' r2',
      get_move_hard b color vm r1 r2 = get_move_hard b color vm r1' r2' ∧
      ∃ (i : Nat) (e : Pos × Pos × Nat), (capture_entries vm)[i]? = some e ∧
        get_move_hard b color vm r1 r2 = some (e.1, e.2.1) ∧
        (∀ (j : Nat) (e' : Pos × Pos × Nat),
          (capture_entries vm)[j]? = some e' → j < i → e'.2.2 < e.2.2) ∧
        (∀ (j : Nat) (e' : Pos × Pos × Nat),
          (capture_entries vm)[j]? = some e' → e'.2.2 ≤ e.2.2) := by
  obtain ⟨hjm, hvm⟩ := capture_entries_ne_nil_of_jump h
  intro r1 r2 r1' r2'
  have hval : ∀ s1 s2 : Nat, get_move_hard b color vm s1 s2 =
      ((capture_entries vm).foldl hard_step
        ((none : Option (Pos × Pos)), 0)).1 := by
    intro s1 s2
    unfold get_move_hard
    rw [if_neg (by simpa using hvm), if_pos (by simpa using hjm)]
  refine ⟨by rw [hval, hval], ?_⟩
  rcases hard_foldl_spec (capture_entries vm) (none, 0) with
    ⟨-, hbound⟩ | ⟨i, e, hget, heq, -, hprev, hmax⟩
  · exfalso
    obtain ⟨e0, he0⟩ : ∃ e0, (capture_entries vm)[0]? = some e0 := by
      cases hL : capture_entries vm with
      | nil => exact absurd hL h
      | cons x xs => exact ⟨x, List.getElem?_cons_zero⟩
    have h1 := capture_entries_pos e0 (List.getElem?_mem he0)
    have h2 := hbound 0 e0 he0
    omega
  · exact ⟨i, e, hget, by rw [hval, heq], hprev, hmax⟩

theorem c7_hard_first_max_witness :
    capture_entries (c3_board.get_all_valid_moves Color.red false) ≠ [] ∧
    (get_move_hard c3_board Color.red
        (c3_board.get_all_valid_moves Color.red false) 0 0 =
      get_move_hard c3_board Color.red
        (c3_board.get_all_valid_moves Color.red false) 5 7 ∧
      ∃ (i : Nat) (e : Pos × Pos × Nat), (capture_entries
          (c3_board.get_all_valid_moves Color.red false))[i]? = some e ∧
        get_move_hard c3_board Color.red
          (c3_board.get_all_valid_moves Color.red false) 0 0 =
          some (e.1, e.2.1) ∧
        (∀ (j : Nat) (e' : Pos × Pos × Nat), (capture_entries
            (c3_board.get_all_valid_moves Color.red false))[j]? =
            some e' → j < i → e'.2.2 < e.2.2) ∧
        (∀ (j : Nat) (e' : Pos × Pos × Nat), (capture_entries
            (c3_board.get_all_valid_moves Color.red false))[j]? =
            some e' → e'.2.2 ≤ e.2.2)) :=
  ⟨by decide, c7_hard_first_max (by decide) 0 0 5 7⟩

theorem list_sum_indicator (mm : MoveMap) (t : Pos) (q : ℚ) :
    (mm.map fun d => q * (if d.1 = t then (1 : ℚ) else 0)).sum =
      (mm.countP fun d => decide (d.1 = t) : Nat) * q := by
  induction mm with
  | nil => simp
  | cons a l ih =>
    rw [List.map_cons, List.sum_cons, ih, List.countP_cons]
    by_cases ha : a.1 = t
    · simp [ha]
      ring
    · simp [ha]

theorem countP_key_eq_one {mm : MoveMap} {t : Pos}
    (hnd : (mm.map Prod.fst).Nodup) (hmem : ∃ caps, (t, caps) ∈ mm) :
    (mm.countP fun d => decide (d.1 = t)) = 1 := by
  induction mm with
  | nil =>
    obtain ⟨caps, hc⟩ := hmem
    exact absurd hc (List.not_mem_nil _)
  | cons a l ih =>
    rw [List.map_cons, List.nodup_cons] at hnd
    obtain ⟨hna, hndl⟩ := hnd
    rw [List.countP_cons]
    by_cases ha : a.1 = t
    · have hzero : l.countP (fun d => decide (d.1 = t)) = 0 := by
        rw [List.countP_eq_zero]
        intro d hd
        simp only [decide_eq_true_eq]
        intro hdt
        exact hna (by
          rw [ha, ← hdt]
          exact List.mem_map_of_mem Prod.fst hd)
      rw [hzero]
      simp [ha]
    · obtain ⟨caps, hc⟩ := hmem
      rcases List.mem_cons.mp hc with heq | hmem'
      · exact absurd (congrArg Prod.fst heq.symm) ha
      · rw [ih hndl ⟨caps, hmem'⟩]
        simp [ha]

theorem inner_zero {e : Pos × MoveMap} {pr : Pos × Pos} (h : ¬ e.1 = pr.1) :
    (e.2.map fun d => (1 / (e.2.length : ℚ)) *
      (if e.1 = pr.1 ∧ d.1 = pr.2 then 1 else 0)).sum = 0 := by
  rw [List.sum_eq_zero]
  intro x hx
  rw [List.mem_map] at hx
  obtain ⟨d, hd, hdx⟩ := hx
  rw [← hdx, if_neg (fun hc => h hc.1), mul_zero]

theorem inner_one {e : Pos × MoveMap} {pr : Pos × Pos} (heq : e.1 = pr.1)
    (hnd : (e.2.map Prod.fst).Nodup) (hd : ∃ d ∈ e.2, d.1 = pr.2) :
    (e.2.map fun d => (1 / (e.2.length : ℚ)) *
      (if e.1 = pr.1 ∧ d.1 = pr.2 then 1 else 0)).sum =
      1 / (e.2.length : ℚ) := by
  have hsimp : ∀ d : Pos × List Pos,
      (if e.1 = pr.1 ∧ d.1 = pr.2 then (1 : ℚ) else 0) =
        (if d.1 = pr.2 then (1 : ℚ) else 0) := by
    intro d
    by_cases hc : d.1 = pr.2 <;> simp [heq, hc]
  simp only [hsimp]
  rw [list_sum_indicator]
  have hmem : ∃ caps, (pr.2, caps) ∈ e.2 := by
    obtain ⟨d, hdm, hdk⟩ := hd
    exact ⟨d.2, by rw [← hdk]; simpa using hdm⟩
  rw [countP_key_eq_one hnd hmem]
  simp

theorem outer_sum (pr : Pos × Pos) (S : ℚ) :
    ∀ jm : AllMoves, (jm.map Prod.fst).Nodup →
      (∀ e ∈ jm, (e.2.map Prod.fst).Nodup) →
      ∀ e0 ∈ jm, e0.1 = pr.1 → (∃ d ∈ e0.2, d.1 = pr.2) →
      (jm.map fun e => S * (e.2.map fun d => (1 / (e.2.length : ℚ)) *
        (if e.1 = pr.1 ∧ d.1 = pr.2 then 1 else 0)).sum).sum =
        S * (1 / (e0.2.length : ℚ)) := by
  intro jm
  induction jm with
  | nil =>
    intro _ _ e0 he0 _ _
    exact absurd he0 (List.not_mem_nil _)
  | cons a l ih =>
    intro hnd hnd2 e0 he0 hkey hd
    rw [List.map_cons, List.sum_cons]
    rw [List.map_cons, List.nodup_cons] at hnd
    obtain ⟨hna, hndl⟩ := hnd
    by_cases hak : a.1 = pr.1
    · have he0a : e0 = a := by
        rcases List.mem_cons.mp he0 with h | h
        · exact h
        · exact absurd (by
            rw [hak, ← hkey]
            exact List.mem_map_of_mem Prod.fst h) hna
      have htail : (l.map fun e => S * (e.2.map fun d =>
          (1 / (e.2.length : ℚ)) *
          (if e.1 = pr.1 ∧ d.1 = pr.2 then 1 else 0)).sum).sum = 0 := by
        rw [List.sum_eq_zero]
        intro x hx
        rw [List.mem_map] at hx
        obtain ⟨e, he, hex⟩ := hx
        have hek : ¬ e.1 = pr.1 := by
          intro hc
          exact hna (by
            rw [hak, ← hc]
            exact List.mem_map_of_mem Prod.fst he)
        rw [← hex, inner_zero hek, mul_zero]
      rw [htail, add_zero,
        inner_one hak (hnd2 a (List.mem_cons_self a l))
          (by rw [he0a] at hd; exact hd),
        he0a]
    · rw [inner_zero hak, mul_zero, zero_add]
      have he0l : e0 ∈ l := by
        rcases List.mem_cons.mp he0 with h | h
        · exact absurd (by rw [← h]; exact hkey) hak
        · exact h
      exact ih hndl (fun e he => hnd2 e (List.mem_cons_of_mem a he))
        e0 he0l hkey hd

/-- C8 (amended): the medium tier's capture branch picks a capturing source
uniformly at random, then a destination uniformly among that source's
capturing destinations, so a capturing pair is chosen with probability
`1/(number of capturing sources) * 1/(number of that source's capturing
destinations)` — not uniformly over pairs. -/
theorem c8_medium_two_stage {vm : AllMoves} {pr : Pos × Pos}
    (hnd : ((jump_moves_of vm).map Prod.fst).Nodup)
    (hnd2 : ∀ e ∈ jump_moves_of vm, (e.2.map Prod.fst).Nodup)
    (hmem : pr ∈ capturing_pairs vm) :
    ∃ mm, (pr.1, mm) ∈ jump_moves_of vm ∧
      medium_capture_prob vm pr =
        (1 / ((jump_moves_of vm).length : ℚ)) * (1 / (mm.length : ℚ)) := by
  unfold capturing_pairs at hmem
  rw [List.mem_flatMap] at hmem
  obtain ⟨e0, he0, hpr⟩ := hmem
  rw [List.mem_map] at hpr
  obtain ⟨d0, hd0, hpr⟩ := hpr
  have hkey : e0.1 = pr.1 := congrArg Prod.fst hpr
  have hdst : d0.1 = pr.2 := congrArg Prod.snd hpr
  refine ⟨e0.2, ?_, ?_⟩
  · rw [← hkey]
    simpa using he0
  · unfold medium_capture_prob
    exact outer_sum pr (1 / ((jump_moves_of vm).length : ℚ))
      (jump_moves_of vm) hnd hnd2 e0 he0 hkey ⟨d0, hd0, hdst⟩

theorem c8_medium_two_stage_witness :
    (((jump_moves_of c8_vm).map Prod.fst).Nodup ∧
      (∀ e ∈ jump_moves_of c8_vm, (e.2.map Prod.fst).Nodup) ∧
      (((4, 3), (2, 1)) : Pos × Pos) ∈ capturing_pairs c8_vm) ∧
    ∃ mm, ((((4 : Int), (3 : Int)) : Pos), mm) ∈ jump_moves_of c8_vm ∧
      medium_capture_prob c8_vm ((4, 3), (2, 1)) =
        (1 / ((jump_moves_of c8_vm).length : ℚ)) * (1 / (mm.length : ℚ)) :=
  ⟨⟨by decide, by decide, by decide⟩,
   @c8_medium_two_stage c8_vm (((4, 3), (2, 1)) : Pos × Pos)
     (by decide) (by decide) (by decide)⟩

/-- C8 counterexample: from `c8_board`, red's capturing pairs are
((4,3),(2,1)), ((4,3),(2,5)) and ((6,5),(4,7)); the medium tier selects the
first with probability 1/4 but the third with probability 1/2, so the
capturing pairs are not equiprobable. -/
theorem c8_jm_eval : jump_moves_of c8_vm =
    [((4, 3), [((2, 1), [(3, 2)]), ((2, 5), [(3, 4)])]),
     ((6, 5), [((4, 7), [(5, 6)])])] := by decide

theorem c8_not_uniform :
    (((4, 3), (2, 1)) : Pos × Pos) ∈ capturing_pairs c8_vm ∧
    (((6, 5), (4, 7)) : Pos × Pos) ∈ capturing_pairs c8_vm ∧
    medium_capture_prob c8_vm ((4, 3), (2, 1)) = 1 / 4 ∧
    medium_capture_prob c8_vm ((6, 5), (4, 7)) = 1 / 2 ∧
    medium_capture_prob c8_vm ((4, 3), (2, 1)) ≠
      medium_capture_prob c8_vm ((6, 5), (4, 7)) := by
  refine ⟨by decide, by decide, ?_, ?_, ?_⟩
  · unfold medium_capture_prob
    rw [c8_jm_eval]
    norm_num
  · unfold medium_capture_prob
    rw [c8_jm_eval]
    norm_num
  · unfold medium_capture_prob
    rw [c8_jm_eval]
    norm_num

end Checkers
